import Mathlib

/-!
Verification of the EchoSense sentiment-analysis service
(`echosense-backend/services/sentimentAnalysis.js`) against its
natural-language specification.

Embedding conventions:
* JavaScript numbers are modelled as exact rationals (`ℚ`).  All literals in
  the scorer (`0.8`, `0.5`, `1.2`, ...) are small decimal fractions, so the
  idealized rational semantics coincides with the double-precision semantics
  on every concrete trace examined here.
* `Number.prototype.toFixed(3)` followed by `parseFloat` is modelled by
  `round3`: round half-up to 3 decimal places (all rounded values in this
  service are nonnegative).
* JavaScript strings are modelled by Lean `String` (a packed `List Char`).
  `toLowerCase` is modelled on the ASCII range (the only range exercised by
  the lexicons), the `\w` regex class is `[A-Za-z0-9_]` (no Unicode flag in
  the source regex) and `\s` is modelled by the common JavaScript whitespace
  code points.
* Dynamically-typed arguments are modelled by the `JSVal` inductive; a JS
  method call on a value that lacks that method (e.g. `null.split`) is
  modelled as `Except.error "TypeError"`.
* `async`/`Promise.all` in `analyzeBatch` resolve in input order, so the
  batch loop is modelled as a sequential fold over chunks.
-/

/-! ## Character and string primitives -/

/-- Tests whether `pat` is a prefix of `l` (Boolean, by `==` on characters). -/
def leadsWith : List Char → List Char → Bool
  | [], _ => true
  | _ :: _, [] => false
  | a :: as, b :: bs => a == b && leadsWith as bs

/-- JavaScript `String.prototype.includes`: does `pat` occur as a contiguous
substring of `l`?  (`pat = []` matches everywhere, as in JS.) -/
def hasSubList (l pat : List Char) : Bool :=
  match l with
  | [] => pat == []
  | _ :: t => leadsWith pat l || hasSubList t pat

/-- JavaScript `text.includes(pat)` on the string wrappers. -/
def strIncludes (s pat : String) : Bool :=
  hasSubList s.toList pat.toList

/-- JavaScript `String.prototype.split(sep)` for a single-character separator:
splits at every occurrence of `sep`, keeping empty fragments (so
`"".split(' ') = [""]` and `"a  b".split(' ') = ["a","","b"]`). -/
def splitOnChar (sep : Char) : List Char → List (List Char)
  | [] => [[]]
  | c :: rest =>
    match splitOnChar sep rest with
    | [] => [[]]
    | g :: gs => if c == sep then [] :: g :: gs else (c :: g) :: gs

/-- `text.split(' ')` as used by `calculateSentimentScore` and
`extractKeywords`. -/
def jsSplitSpace (s : String) : List String :=
  (splitOnChar ' ' s.toList).map String.mk

/-- ASCII case mapping of `String.prototype.toLowerCase`, per character. -/
def lowerChar (c : Char) : Char :=
  if 65 ≤ c.toNat && c.toNat ≤ 90 then Char.ofNat (c.toNat + 32) else c

/-- `text.toLowerCase()` (ASCII range). -/
def lowerStr (s : String) : String :=
  String.mk (s.toList.map lowerChar)

/-- Membership in the regex class `\w`, i.e. `[A-Za-z0-9_]` (the source regex
`/[^\w\s]/g` has no Unicode flag). -/
def isWordChar (c : Char) : Bool :=
  (97 ≤ c.toNat && c.toNat ≤ 122) || (65 ≤ c.toNat && c.toNat ≤ 90) ||
    (48 ≤ c.toNat && c.toNat ≤ 57) || c.toNat == 95

/-- Membership in the regex class `\s`: space, tab, LF, VT, FF, CR, NBSP and
the Unicode line/paragraph separators and BOM recognised by JavaScript. -/
def isSpaceJS (c : Char) : Bool :=
  c.toNat == 32 || c.toNat == 9 || c.toNat == 10 || c.toNat == 11 ||
    c.toNat == 12 || c.toNat == 13 || c.toNat == 160 || c.toNat == 8232 ||
    c.toNat == 8233 || c.toNat == 65279

/-- One character of `.replace(/[^\w\s]/g, ' ')`: every character that is
neither a word character nor whitespace becomes a space. -/
def stripPunct (c : Char) : Char :=
  if isWordChar c || isSpaceJS c then c else ' '

/-- Splits a character list into its maximal runs of non-whitespace
characters (auxiliary; empty groups mark whitespace positions and are
filtered away by `wordGroups`). -/
def groupsAux : List Char → List (List Char)
  | [] => []
  | c :: rest =>
    if isSpaceJS c then [] :: groupsAux rest
    else
      match groupsAux rest with
      | [] => [[c]]
      | g :: gs => (c :: g) :: gs

/-- The maximal non-whitespace runs of a character list. -/
def wordGroups (l : List Char) : List (List Char) :=
  (groupsAux l).filter (fun g => !g.isEmpty)

/-- Joins groups with single spaces. -/
def joinSp : List (List Char) → List Char
  | [] => []
  | [g] => g
  | g :: g2 :: rest => g ++ ' ' :: joinSp (g2 :: rest)

/-! ## JavaScript dynamic values -/

/-- The JavaScript values relevant to this service's dynamic argument
handling. -/
inductive JSVal where
  | vnull
  | vundef
  | vbool (b : Bool)
  | vnum (q : ℚ)
  | vstr (s : String)
  | varr (l : List JSVal)

/-- `typeof v === 'string'`. -/
def isString : JSVal → Bool
  | JSVal.vstr _ => true
  | _ => false

/-- `Array.isArray(v)`. -/
def isArray : JSVal → Bool
  | JSVal.varr _ => true
  | _ => false

/-! ## Lexicons (verbatim from `initialize()`) -/

def positiveKeywords : List String :=
  ["excellent", "amazing", "great", "fantastic", "wonderful", "awesome", "love", "perfect",
   "outstanding", "brilliant", "superb", "magnificent", "incredible", "remarkable",
   "innovation", "revolutionary", "breakthrough", "cutting-edge", "advanced", "efficient",
   "sustainable", "eco-friendly", "green", "clean", "renewable", "future"]

def negativeKeywords : List String :=
  ["terrible", "awful", "horrible", "bad", "worst", "hate", "disgusting", "pathetic",
   "disappointing", "frustrating", "annoying", "useless", "broken", "failed",
   "expensive", "overpriced", "costly", "waste", "scam", "fraud", "problem",
   "issue", "bug", "error", "crash", "slow", "delayed", "cancelled"]

def neutralKeywords : List String :=
  ["okay", "fine", "average", "normal", "standard", "typical", "regular",
   "moderate", "acceptable", "decent", "fair", "reasonable"]

def negationWords : List String :=
  ["not", "no", "never", "none", "nothing", "nowhere", "neither", "nobody"]

def intensifierWords : List String :=
  ["very", "extremely", "incredibly", "absolutely", "completely", "totally"]

/-! ## `preprocessText` -/

/-- The three-step normalization of `preprocessText` on an actual string:
`toLowerCase()`, then `.replace(/[^\w\s]/g, ' ')`, then
`.replace(/\s+/g, ' ').trim()`.  The last two regex passes collapse every
maximal whitespace run to a single space and drop leading/trailing
whitespace, which is exactly "join the non-whitespace runs with single
spaces". -/
def preprocessString (s : String) : String :=
  String.mk (joinSp (wordGroups ((s.toList.map lowerChar).map stripPunct)))

/-- `preprocessText(text)`: a falsy or non-string argument yields `""`
(the guard `!text || typeof text !== 'string'`; the only falsy string is
`""`, for which the guard's early return agrees with normalizing). -/
def preprocessText : JSVal → String
  | JSVal.vstr s => if s = "" then "" else preprocessString s
  | _ => ""

/-! ## `calculateSentimentScore` -/

/-- Math.min on (non-NaN) rationals. -/
def jsMin (a b : ℚ) : ℚ := if a ≤ b then a else b

/-- Math.max on (non-NaN) rationals. -/
def jsMax (a b : ℚ) : ℚ := if a ≤ b then b else a

/-- `parseFloat(x.toFixed(3))` for the nonnegative scores and confidences of
this service: round half-up to three decimal places. -/
def round3 (q : ℚ) : ℚ :=
  ((Rat.floor (q * 1000 + 0.5) : ℤ) : ℚ) / 1000

/-- The token list of `calculateSentimentScore`:
`text.split(' ').filter(word => word.length > 2)`. -/
def sentimentWords (text : String) : List String :=
  (jsSplitSpace text).filter (fun w => w.length > 2)

/-- Accumulator of the keyword-counting `forEach` loop: the three weighted
scores and the `foundKeywords` list of `(word, type)` records. -/
structure Tally where
  pos : ℚ
  neg : ℚ
  neu : ℚ
  found : List (String × String)

/-- One iteration of the `words.forEach` keyword-matching loop. -/
def tallyStep (t : Tally) (word : String) : Tally :=
  if positiveKeywords.contains word then
    { t with pos := t.pos + 1, found := t.found ++ [(word, "positive")] }
  else if negativeKeywords.contains word then
    { t with neg := t.neg + 1, found := t.found ++ [(word, "negative")] }
  else if neutralKeywords.contains word then
    { t with neu := t.neu + 0.5, found := t.found ++ [(word, "neutral")] }
  else t

/-- The whole keyword-matching loop over a token list. -/
def tallyOf (words : List String) : Tally :=
  words.foldl tallyStep ⟨0, 0, 0, []⟩

/-- `positiveScore + negativeScore + neutralScore` for a (preprocessed or
raw) text handed to `calculateSentimentScore`. -/
def totalOf (text : String) : ℚ :=
  let t := tallyOf (sentimentWords text)
  t.pos + t.neg + t.neu

/-- The base sentiment score before context modifiers (lines 119-134):
`0.5` when no keyword matched, else
`positiveWeight*0.8 + negativeWeight*0.2 + 0.1`. -/
def rawScoreOf (text : String) : ℚ :=
  let t := tallyOf (sentimentWords text)
  let totalScore := t.pos + t.neg + t.neu
  if totalScore = 0 then 0.5
  else (t.pos / totalScore) * 0.8 + (t.neg / totalScore) * 0.2 + 0.1

/-- The confidence value: `0.3` when no keyword matched, else
`Math.min(0.95, Math.max(0.4, totalScore / words.length * 2))`. -/
def confidenceOf (text : String) : ℚ :=
  let t := tallyOf (sentimentWords text)
  let totalScore := t.pos + t.neg + t.neu
  if totalScore = 0 then 0.3
  else jsMin 0.95 (jsMax 0.4 (totalScore / ((sentimentWords text).length : ℚ) * 2))

/-- Context modifier 1 (lines 163-170): if any negation word occurs as a
substring of the text, invert the score. -/
def negStage (text : String) (s : ℚ) : ℚ :=
  if negationWords.any (fun w => strIncludes text w) then 1 - s else s

/-- Context modifier 2 (lines 172-183): if any intensifier occurs as a
substring, amplify away from the midpoint. -/
def intenseStage (text : String) (s : ℚ) : ℚ :=
  if intensifierWords.any (fun w => strIncludes text w) then
    if s > 0.5 then jsMin 1 (s * 1.2) else jsMax 0 (s * 0.8)
  else s

/-- Context modifier 3 (lines 185-188): a question mark pulls the score
toward neutral. -/
def questionStage (text : String) (s : ℚ) : ℚ :=
  if strIncludes text "?" then (s + 0.5) / 2 else s

/-- The number of `'!'` characters in the text (`text.match(/!/g).length`). -/
def exclaimCount (text : String) : ℕ :=
  (text.toList.filter (fun c => c == '!')).length

/-- Context modifier 4 (lines 190-199): exclamation marks push the score away
from the midpoint, by `min(0.2, count*0.1)`. -/
def exclaimStage (text : String) (s : ℚ) : ℚ :=
  if exclaimCount text > 0 then
    let intensity := jsMin 0.2 ((exclaimCount text : ℚ) * 0.1)
    if s > 0.5 then jsMin 1 (s + intensity) else jsMax 0 (s - intensity)
  else s

/-- `applyContextModifiers(text, baseScore)`: the four modifiers in source
order. -/
def applyContextModifiers (text : String) (baseScore : ℚ) : ℚ :=
  exclaimStage text (questionStage text (intenseStage text (negStage text baseScore)))

/-- The clamped final score (line 140): `Math.max(0, Math.min(1, score))`
after the context modifiers. -/
def finalScoreOf (text : String) : ℚ :=
  jsMax 0 (jsMin 1 (applyContextModifiers text (rawScoreOf text)))

/-- The label thresholds (lines 143-150), applied to the clamped
pre-rounding score. -/
def labelOf (text : String) : String :=
  if finalScoreOf text ≥ 0.6 then "POSITIVE"
  else if finalScoreOf text ≤ 0.4 then "NEGATIVE"
  else "NEUTRAL"

/-- The record returned by `calculateSentimentScore`. -/
structure SentimentResult where
  score : ℚ
  label : String
  confidence : ℚ
  keywords : List String
deriving DecidableEq, Repr

/-- `calculateSentimentScore(text)` for a string argument.  The returned
`score` and `confidence` pass through `parseFloat(x.toFixed(3))`
(three-decimal rounding); the label is computed from the unrounded clamped
score. -/
def calculateSentimentScore (text : String) : SentimentResult :=
  { score := round3 (finalScoreOf text)
    label := labelOf text
    confidence := round3 (confidenceOf text)
    keywords := (tallyOf (sentimentWords text)).found.map (fun k => k.1) }

/-- `calculateSentimentScore` as invoked on an arbitrary JS value:
`text.split(' ')` throws `TypeError` unless `text` is a string. -/
def calculateSentimentScoreJS : JSVal → Except String SentimentResult
  | JSVal.vstr s => Except.ok (calculateSentimentScore s)
  | _ => Except.error "TypeError"

/-! ## `analyzeSentiment` and `analyzeBatch` -/

/-- The record returned by `analyzeSentiment`. -/
structure SentimentOutput where
  sentiment_score : ℚ
  sentiment_label : String
  confidence : ℚ
  keywords : List String
deriving DecidableEq, Repr

/-- `getDefaultSentiment()`. -/
def getDefaultSentiment : SentimentOutput :=
  ⟨0.5, "NEUTRAL", 0.3, []⟩

/-- `analyzeSentiment(text)`: preprocess, score, repackage.  The service is
always initialized (the constructor's `initialize()` only assigns constant
tables) and the body of the `try` block is total in this model, so the
`catch` path never fires. -/
def analyzeSentiment (text : JSVal) : SentimentOutput :=
  let sentiment := calculateSentimentScore (preprocessText text)
  ⟨sentiment.score, sentiment.label, sentiment.confidence, sentiment.keywords⟩

/-- The chunked loop of `analyzeBatch` (lines 73-79): take `batchSize` texts,
analyze them (Promise.all keeps input order), append, repeat.  The JS loop
never terminates if `batchSize ≤ 0`, which is unreachable through the
constructor (`parseInt(env) || 32` replaces `0`/`NaN` by `32`); that case is
cut off to keep the model total. -/
def batchLoop (bs : ℕ) : List JSVal → List SentimentOutput
  | [] => []
  | x :: xs =>
    if _h : bs = 0 then []
    else ((x :: xs).take bs).map analyzeSentiment ++ batchLoop bs ((x :: xs).drop bs)
termination_by l => l.length
decreasing_by
  simp only [List.length_drop, List.length_cons]
  omega

/-- `analyzeBatch(texts)` with the service's `batchSize`: a non-array
argument returns `[]`. -/
def analyzeBatch (texts : JSVal) (batchSize : ℕ) : List SentimentOutput :=
  match texts with
  | JSVal.varr l => batchLoop batchSize l
  | _ => []

/-! ## `extractBrandMentions` -/

/-- The `brands.forEach` loop of `extractBrandMentions`: lowercase each
brand, test substring containment, collect matches in order.  A non-string
element makes `brand.toLowerCase()` throw. -/
def brandLoop (cleanText : String) : List JSVal → Except String (List String)
  | [] => Except.ok []
  | JSVal.vstr b :: rest =>
    match brandLoop cleanText rest with
    | Except.ok ms =>
      Except.ok (if strIncludes cleanText (lowerStr b) then b :: ms else ms)
    | Except.error e => Except.error e
  | _ => Except.error "TypeError"

/-- `extractBrandMentions(text, brands)` (lines 204-220).  The guard
`!brands || !Array.isArray(brands)` returns `[]` for every non-array
`brands` (arrays are always truthy).  After the guard,
`text.toLowerCase()` throws `TypeError` when `text` is not a string: the
source has no guard on `text`. -/
def extractBrandMentions (text brands : JSVal) : Except String (List String) :=
  match brands with
  | JSVal.varr l =>
    match text with
    | JSVal.vstr s => brandLoop (lowerStr s) l
    | _ => Except.error "TypeError"
  | _ => Except.ok []

/-! ## `extractKeywords` -/

/-- A value stored in the `wordFreq` object literal: either a genuine
number, or a non-numeric string.  `wordFreq` is a plain `{}` with
`Object.prototype` on its chain, so for a token naming a prototype member
the read `wordFreq[word]` finds an inherited truthy function and
`fn + 1` stores its string form with `"1"` appended — a non-numeric
string, and still non-numeric after further `+ 1` concatenations.  The
exact text is engine formatting (`String(fn)` is implementation-dependent)
and is never observable here: the values are only consumed by the sort
comparator `b - a`, which is `NaN` — coerced to `+0` by `SortCompare` —
whenever a non-numeric string is involved. -/
inductive JSCount where
  | num (n : ℕ)
  | garbage
deriving DecidableEq, Repr

/-- The function-valued `Object.prototype` members (standard and Annex B)
that a property read on a fresh `{}` finds through the prototype chain;
the accessor `__proto__` is handled separately. -/
def objectProtoFns : List String :=
  ["constructor", "hasOwnProperty", "isPrototypeOf", "propertyIsEnumerable",
   "toLocaleString", "toString", "valueOf",
   "__defineGetter__", "__defineSetter__", "__lookupGetter__", "__lookupSetter__"]

/-- Does a key collide with the `Object.prototype` chain of `{}`? -/
def isProtoName (w : String) : Bool :=
  w == "__proto__" || objectProtoFns.contains w

/-- `wordFreq[word] = (wordFreq[word] || 0) + 1` on the insertion-ordered
own entries of the object `wordFreq`:
* an own entry for `word` is updated in place (`n + 1` on a number; a
  garbage string stays a garbage string under `+ 1` concatenation);
* otherwise, if `word` is `"__proto__"`, the read finds the inherited
  accessor (a truthy object), but the assignment invokes the inherited
  `__proto__` setter, which ignores primitive values — no own entry is
  created and the table is unchanged;
* otherwise, if `word` names an `Object.prototype` function, the inherited
  function is truthy, so `fn + 1` stores a garbage string as a new entry;
* otherwise the read is `undefined` (falsy) and the new entry is `1`.
JavaScript object enumeration puts integer-like keys first; no claim proved
here depends on enumeration order, and this model uses plain
first-insertion order (the spec leaves tie order open). -/
def bump : List (String × JSCount) → String → List (String × JSCount)
  | [], w =>
    if w = "__proto__" then []
    else if objectProtoFns.contains w then [(w, JSCount.garbage)]
    else [(w, JSCount.num 1)]
  | (k, c) :: rest, w =>
    if k = w then
      (k, match c with
          | JSCount.num n => JSCount.num (n + 1)
          | JSCount.garbage => JSCount.garbage) :: rest
    else (k, c) :: bump rest w

/-- One iteration of the frequency-counting `forEach`: only tokens of length
`> 3` touch the object. -/
def freqStep (acc : List (String × JSCount)) (w : String) : List (String × JSCount) :=
  if w.length > 3 then bump acc w else acc

/-- The full `wordFreq` table for a given argument. -/
def wordFreqOf (text : JSVal) : List (String × JSCount) :=
  (jsSplitSpace (preprocessText text)).foldl freqStep []

/-- The comparator `([,a],[,b]) => b - a` folded into a placement test for
stable insertion: `x` may stay ahead of `y` iff the comparator does not
order `y` strictly before `x`, i.e. `count y - count x ≤ 0`.  A comparison
involving a non-numeric string evaluates to `NaN`, which `SortCompare`
coerces to `+0` ("equal"), so garbage counts compare equal to
everything. -/
def jsCmpKeepsBefore : JSCount → JSCount → Bool
  | JSCount.num nx, JSCount.num ny => nx ≥ ny
  | _, _ => true

/-- Stable insertion for the engine's stable `Array.prototype.sort` under
the `b - a` comparator.  On tables whose counts are all numeric the
comparator is consistent and this insertion sort is THE stable descending
sort; on tables of at most two entries its result is forced by stability
alone.  No theorem below relies on the order of larger tables with garbage
counts, where the comparator is inconsistent and ECMA-262 leaves the order
implementation-defined. -/
def insertDescJS (x : String × JSCount) :
    List (String × JSCount) → List (String × JSCount)
  | [] => [x]
  | y :: l => if jsCmpKeepsBefore x.2 y.2 then x :: y :: l else y :: insertDescJS x l

/-- The sort of `extractKeywords` (insertion sort; see `insertDescJS`). -/
def sortDescJS : List (String × JSCount) → List (String × JSCount)
  | [] => []
  | x :: l => insertDescJS x (sortDescJS l)

/-- `extractKeywords(text, maxKeywords)` (lines 222-238). -/
def extractKeywords (text : JSVal) (maxKeywords : ℕ) : List String :=
  ((sortDescJS (wordFreqOf text)).take maxKeywords).map (fun p => p.1)

/-- Stable insertion of an entry into a count-descending list of genuine
numbers: an element moves ahead of strictly smaller counts only, so equal
counts keep their original relative order — the behavior of the stable
`Array.prototype.sort(([,a],[,b]) => b - a)` on numeric values.  Used by
`getEmotionAnalysis`, whose six counts are always numbers. -/
def insertDesc (x : String × ℕ) : List (String × ℕ) → List (String × ℕ)
  | [] => [x]
  | y :: l => if x.2 ≥ y.2 then x :: y :: l else y :: insertDesc x l

/-- Stable sort by descending numeric count (insertion sort; any two stable
sorts under the same consistent comparator agree, so this models the JS
engine's stable sort). -/
def sortDesc : List (String × ℕ) → List (String × ℕ)
  | [] => []
  | x :: l => insertDesc x (sortDesc l)

/-- Proof-side reference table update: the insertion-ordered TRUE counts,
i.e. what `wordFreq[word] = (wordFreq[word] || 0) + 1` computes when no
token collides with the `Object.prototype` chain.  This is not by itself a
model of the object — `bump` is; the two agree on prototype-free keys
(`bump_lift`). -/
def refBump : List (String × ℕ) → String → List (String × ℕ)
  | [], w => [(w, 1)]
  | (k, c) :: rest, w =>
    if k = w then (k, c + 1) :: rest else (k, c) :: refBump rest w

/-- Proof-side reference for one `forEach` iteration. -/
def refFreqStep (acc : List (String × ℕ)) (w : String) : List (String × ℕ) :=
  if w.length > 3 then refBump acc w else acc

/-- Proof-side reference frequency table. -/
def refWordFreq (text : JSVal) : List (String × ℕ) :=
  (jsSplitSpace (preprocessText text)).foldl refFreqStep []

/-- Lifts a reference (numeric) table entry into the JS value model. -/
def liftNum (p : String × ℕ) : String × JSCount := (p.1, JSCount.num p.2)

/-! ## `getEmotionAnalysis` -/

/-- The six fixed emotion lexicons, in source (insertion) order. -/
def emotionKeywords : List (String × List String) :=
  [("joy", ["happy", "excited", "thrilled", "delighted", "pleased", "satisfied"]),
   ("anger", ["angry", "furious", "mad", "irritated", "annoyed", "frustrated"]),
   ("fear", ["scared", "afraid", "worried", "anxious", "concerned", "nervous"]),
   ("sadness", ["sad", "disappointed", "upset", "depressed", "unhappy"]),
   ("surprise", ["surprised", "shocked", "amazed", "astonished", "stunned"]),
   ("trust", ["trust", "confident", "reliable", "dependable", "secure"])]

/-- `emotionScores`: for each category, the number of its keywords occurring
as substrings of the preprocessed text. -/
def emotionScoresOf (text : JSVal) : List (String × ℕ) :=
  emotionKeywords.map (fun p =>
    (p.1, (p.2.filter (fun k => strIncludes (preprocessText text) k)).length))

/-- The record returned by `getEmotionAnalysis`. -/
structure EmotionResult where
  dominant_emotion : String
  emotion_scores : List (String × ℕ)
deriving DecidableEq, Repr

/-- `getEmotionAnalysis(text)` (lines 240-267): stable-sort the six scores
by descending count; the head is the dominant entry, demoted to
`"neutral"` only when its count is zero. -/
def getEmotionAnalysis (text : JSVal) : EmotionResult :=
  let emotionScores := emotionScoresOf text
  match sortDesc emotionScores with
  | [] => ⟨"neutral", emotionScores⟩
  | (e, c) :: _ => ⟨if c > 0 then e else "neutral", emotionScores⟩

/-- Specification-side definition (from the claim wording, for comparison
with the code): the first entry of a score list achieving the maximal
count. -/
def firstMaxEntry : List (String × ℕ) → Option (String × ℕ)
  | [] => none
  | x :: rest =>
    match firstMaxEntry rest with
    | none => some x
    | some y => if x.2 ≥ y.2 then some x else some y

/-! ## Helper lemmas: `jsMin`, `jsMax`, `round3` -/

theorem jsMin_le_left (a b : ℚ) : jsMin a b ≤ a := by
  unfold jsMin; split <;> linarith

theorem jsMin_le_right (a b : ℚ) : jsMin a b ≤ b := by
  unfold jsMin; split <;> linarith

theorem le_jsMin {a b c : ℚ} (h1 : c ≤ a) (h2 : c ≤ b) : c ≤ jsMin a b := by
  unfold jsMin; split <;> linarith

theorem le_jsMax_left (a b : ℚ) : a ≤ jsMax a b := by
  unfold jsMax; split <;> linarith

theorem le_jsMax_right (a b : ℚ) : b ≤ jsMax a b := by
  unfold jsMax; split <;> linarith

theorem jsMax_le {a b c : ℚ} (h1 : a ≤ c) (h2 : b ≤ c) : jsMax a b ≤ c := by
  unfold jsMax; split <;> linarith

theorem rfloor_le (q : ℚ) : (Rat.floor q : ℚ) ≤ q :=
  Rat.le_floor.mp (le_refl _)

theorem rfloor_mono {a b : ℚ} (h : a ≤ b) : Rat.floor a ≤ Rat.floor b :=
  Rat.le_floor.mpr (le_trans (rfloor_le a) h)

theorem round3_mono {a b : ℚ} (h : a ≤ b) : round3 a ≤ round3 b := by
  unfold round3
  have h2 : Rat.floor (a * 1000 + 0.5) ≤ Rat.floor (b * 1000 + 0.5) := by
    apply rfloor_mono; linarith
  have h3 : ((Rat.floor (a * 1000 + 0.5) : ℤ) : ℚ) ≤ ((Rat.floor (b * 1000 + 0.5) : ℤ) : ℚ) := by
    exact_mod_cast h2
  linarith

/-! ## Helper lemmas: the keyword tally -/

/-- The `totalScore` of a tally. -/
def tallyTotal (t : Tally) : ℚ := t.pos + t.neg + t.neu

theorem tallyStep_total_ge (t : Tally) (w : String) :
    tallyTotal t ≤ tallyTotal (tallyStep t w) := by
  unfold tallyStep tallyTotal
  split_ifs <;> (simp; try linarith)

theorem tallyFold_total_ge (ws : List String) (t : Tally) :
    tallyTotal t ≤ tallyTotal (ws.foldl tallyStep t) := by
  induction ws generalizing t with
  | nil => simp
  | cons w ws ih =>
    calc tallyTotal t ≤ tallyTotal (tallyStep t w) := tallyStep_total_ge t w
      _ ≤ tallyTotal ((w :: ws).foldl tallyStep t) := by simpa using ih (tallyStep t w)

theorem tallyStep_eq_of_total_eq {t : Tally} {w : String}
    (h : tallyTotal (tallyStep t w) = tallyTotal t) : tallyStep t w = t := by
  unfold tallyStep at *
  unfold tallyTotal at h
  split_ifs at h ⊢ with h1 h2 h3
  · exfalso; simp at h; try linarith
  · exfalso; simp at h; try linarith
  · exfalso; simp at h; try linarith
  · rfl

theorem tallyFold_eq_of_total_eq : ∀ (ws : List String) (t : Tally),
    tallyTotal (ws.foldl tallyStep t) = tallyTotal t → ws.foldl tallyStep t = t := by
  intro ws
  induction ws with
  | nil => intro t _; rfl
  | cons w ws ih =>
    intro t h
    simp only [List.foldl_cons] at h ⊢
    have hle1 := tallyStep_total_ge t w
    have hle2 := tallyFold_total_ge ws (tallyStep t w)
    have hstep : tallyStep t w = t := tallyStep_eq_of_total_eq (by linarith)
    rw [hstep] at h ⊢
    exact ih t h

theorem tallyOf_of_total_zero {text : String} (h : totalOf text = 0) :
    tallyOf (sentimentWords text) = ⟨0, 0, 0, []⟩ := by
  have h0 : tallyTotal (tallyOf (sentimentWords text)) = tallyTotal ⟨0, 0, 0, []⟩ := by
    unfold totalOf at h
    unfold tallyTotal
    simpa using h
  exact tallyFold_eq_of_total_eq (sentimentWords text) ⟨0, 0, 0, []⟩ h0

/-! ## Helper lemmas: context-modifier stages -/

theorem negStage_at_half (text : String) : negStage text 0.5 = 0.5 := by
  unfold negStage; split <;> norm_num

theorem negStage_id {text : String}
    (h : negationWords.any (fun w => strIncludes text w) = false) (s : ℚ) :
    negStage text s = s := by
  unfold negStage; rw [h]; simp

theorem intenseStage_id {text : String}
    (h : intensifierWords.any (fun w => strIncludes text w) = false) (s : ℚ) :
    intenseStage text s = s := by
  unfold intenseStage; rw [h]; simp

theorem questionStage_at_half (text : String) : questionStage text 0.5 = 0.5 := by
  unfold questionStage; split <;> norm_num

theorem exclaimStage_id {text : String} (h : exclaimCount text = 0) (s : ℚ) :
    exclaimStage text s = s := by
  unfold exclaimStage; rw [h]; simp

theorem round3_half : round3 0.5 = 0.5 := by with_unfolding_all decide

theorem round3_03 : round3 0.3 = 0.3 := by with_unfolding_all decide

/-! ## Claim C2 -/

/-- C2, counterexample: `"very"` has zero weighted lexicon matches, yet
`calculateSentimentScore "very"` returns score `0.4`, not `0.5` — the
zero-match default `0.5` is still fed through the context modifiers, and the
intensifier branch multiplies it by `0.8` (the `s > 0.5` test fails at
exactly `0.5`). -/
theorem claim_C2_counterexample :
    totalOf "very" = 0 ∧
    (calculateSentimentScore "very").score = 2/5 ∧ ((2 : ℚ)/5) ≠ 0.5 := by
  with_unfolding_all decide

/-- C2 (amended): an input with zero weighted lexicon matches — in
particular `calculateSentimentScore ""` — returns exactly score `0.5` and
confidence `0.3`, provided no context modifier that moves a `0.5` score
fires: the text contains no intensifier substring and no `'!'` character
(negation and question marks leave the `0.5` default unchanged). -/
theorem claim_C2_amended (text : String)
    (h0 : totalOf text = 0)
    (hint : intensifierWords.any (fun w => strIncludes text w) = false)
    (hex : exclaimCount text = 0) :
    (calculateSentimentScore text).score = 0.5 ∧
    (calculateSentimentScore text).confidence = 0.3 := by
  have htally := tallyOf_of_total_zero h0
  have hraw : rawScoreOf text = 0.5 := by
    unfold rawScoreOf; rw [htally]; norm_num
  have hconf : confidenceOf text = 0.3 := by
    unfold confidenceOf; rw [htally]; norm_num
  have hacm : applyContextModifiers text (rawScoreOf text) = 0.5 := by
    unfold applyContextModifiers
    rw [hraw, negStage_at_half, intenseStage_id hint, questionStage_at_half,
      exclaimStage_id hex]
  have hfs : finalScoreOf text = 0.5 := by
    unfold finalScoreOf; rw [hacm]; norm_num [jsMin, jsMax]
  constructor
  · show round3 (finalScoreOf text) = 0.5
    rw [hfs, round3_half]
  · show round3 (confidenceOf text) = 0.3
    rw [hconf, round3_03]

/-- C2, witness: the amended claim applied at the empty string. -/
theorem claim_C2_witness :
    (calculateSentimentScore "").score = 0.5 ∧
    (calculateSentimentScore "").confidence = 0.3 :=
  claim_C2_amended "" (by with_unfolding_all decide) (by decide) (by decide)

/-! ## Claim C6 -/

/-- C6: with two (or any number of) negation words present, the negation
modifier inverts the score exactly once — `hasNegation` is a Boolean OR over
the fixed list, not a parity count — so double negation does not restore the
uninverted score (whenever the score is not exactly `0.5`). -/
theorem claim_C6 (text : String) (w1 w2 : String) (s : ℚ)
    (h1 : w1 ∈ negationWords) (_h2 : w2 ∈ negationWords) (_hne : w1 ≠ w2)
    (hc1 : strIncludes text w1 = true) (_hc2 : strIncludes text w2 = true) :
    negStage text s = 1 - s ∧ (s ≠ 0.5 → negStage text s ≠ s) := by
  have hg : negationWords.any (fun w => strIncludes text w) = true :=
    List.any_eq_true.mpr ⟨w1, h1, hc1⟩
  have heq : negStage text s = 1 - s := by unfold negStage; rw [hg]; simp
  refine ⟨heq, fun hs => ?_⟩
  rw [heq]
  intro hcontra
  apply hs
  have : (1 : ℚ) - s = s := hcontra
  norm_num
  linarith

/-- C6, witness: a doubly negated text is inverted exactly once. -/
theorem claim_C6_witness :
    negStage "not never bad" 0.3 = 1 - 0.3 ∧
    ((0.3 : ℚ) ≠ 0.5 → negStage "not never bad" 0.3 ≠ 0.3) :=
  claim_C6 "not never bad" "not" "never" 0.3 (by decide) (by decide)
    (by decide) (by decide) (by decide)

/-! ## Claim C3 -/

theorem negative_not_positive :
    ∀ w ∈ negativeKeywords, positiveKeywords.contains w = false := by decide

theorem negative_contains :
    ∀ w ∈ negativeKeywords, negativeKeywords.contains w = true := by decide

theorem tally_all_negative : ∀ (ws : List String) (t : Tally),
    (∀ w ∈ ws, w ∈ negativeKeywords) →
    ws.foldl tallyStep t =
      { t with neg := t.neg + (ws.length : ℚ),
               found := t.found ++ ws.map (fun w => (w, "negative")) } := by
  intro ws
  induction ws with
  | nil => intro t _; simp
  | cons w ws ih =>
    intro t hall
    have hw : w ∈ negativeKeywords := hall w (by simp)
    have hstep : tallyStep t w =
        { t with neg := t.neg + 1, found := t.found ++ [(w, "negative")] } := by
      unfold tallyStep
      rw [negative_not_positive w hw, negative_contains w hw]
      simp
    simp only [List.foldl_cons, hstep]
    rw [ih _ (fun x hx => hall x (by simp [hx]))]
    simp only [List.map_cons, List.length_cons, Tally.mk.injEq]
    refine ⟨trivial, by push_cast; ring, trivial, by simp⟩

theorem intenseStage_bounds (text : String) {s : ℚ} (h0 : 0 ≤ s) (h3 : s ≤ 0.3) :
    0 ≤ intenseStage text s ∧ intenseStage text s ≤ 0.3 := by
  unfold intenseStage
  split_ifs with hg hgt
  · exfalso; linarith
  · constructor
    · exact le_jsMax_left 0 _
    · exact jsMax_le (by norm_num) (by linarith)
  · exact ⟨h0, h3⟩

theorem questionStage_bounds (text : String) {s : ℚ} (h0 : 0 ≤ s) (h3 : s ≤ 0.3) :
    0 ≤ questionStage text s ∧ questionStage text s ≤ 0.4 := by
  unfold questionStage
  split_ifs
  · constructor <;> linarith
  · exact ⟨h0, by linarith⟩

theorem exclaimStage_bounds (text : String) {s : ℚ} (h0 : 0 ≤ s) (h4 : s ≤ 0.4) :
    0 ≤ exclaimStage text s ∧ exclaimStage text s ≤ 0.4 := by
  unfold exclaimStage
  split_ifs with hg hgt
  · exfalso; linarith
  · have hi : 0 ≤ jsMin 0.2 ((exclaimCount text : ℚ) * 0.1) :=
      le_jsMin (by norm_num) (by positivity)
    constructor
    · exact le_jsMax_left 0 _
    · exact jsMax_le (by norm_num) (by linarith)
  · exact ⟨h0, h4⟩

/-- Without a negation match, a base score in `[0, 0.3]` stays in `[0, 0.4]`
through all four context modifiers. -/
theorem modifiers_bounds_of_no_negation (text : String) {s : ℚ}
    (hneg : negationWords.any (fun w => strIncludes text w) = false)
    (h0 : 0 ≤ s) (h3 : s ≤ 0.3) :
    0 ≤ applyContextModifiers text s ∧ applyContextModifiers text s ≤ 0.4 := by
  unfold applyContextModifiers
  rw [negStage_id hneg]
  obtain ⟨i0, i3⟩ := intenseStage_bounds text h0 h3
  obtain ⟨q0, q4⟩ := questionStage_bounds text i0 i3
  exact exclaimStage_bounds text q0 q4

/-- C3, counterexample to the unrestricted claim: the empty text vacuously
has all of its words in the negative lexicon and contains no negation word,
but its score after context modifiers is exactly `0.5`, not `< 0.5`. -/
theorem claim_C3_counterexample :
    (∀ w ∈ sentimentWords "", w ∈ negativeKeywords) ∧
    negationWords.any (fun w => strIncludes "" w) = false ∧
    ¬(applyContextModifiers "" (rawScoreOf "") < 0.5) := by
  with_unfolding_all decide

/-- C3 (amended): for every text with at least one scored word, all of whose
words come from the negative lexicon, and which contains no negation word
(as a substring, the code's test), the score after context modifiers — and
hence the clamped and the returned rounded score — is strictly below
`0.5`. -/
theorem claim_C3_amended (text : String)
    (hw : sentimentWords text ≠ [])
    (hall : ∀ w ∈ sentimentWords text, w ∈ negativeKeywords)
    (hneg : negationWords.any (fun w => strIncludes text w) = false) :
    applyContextModifiers text (rawScoreOf text) < 0.5 ∧
    finalScoreOf text < 0.5 ∧ (calculateSentimentScore text).score < 0.5 := by
  have hlen : (0 : ℚ) < ((sentimentWords text).length : ℚ) := by
    have : sentimentWords text ≠ [] := hw
    have hpos : 0 < (sentimentWords text).length := List.length_pos.mpr this
    exact_mod_cast hpos
  have htally : tallyOf (sentimentWords text) =
      ⟨0, ((sentimentWords text).length : ℚ), 0,
        (sentimentWords text).map (fun w => (w, "negative"))⟩ := by
    unfold tallyOf
    rw [tally_all_negative _ _ hall]
    simp
  have hne : ((sentimentWords text).length : ℚ) ≠ 0 := ne_of_gt hlen
  have hraw : rawScoreOf text = 0.3 := by
    unfold rawScoreOf
    rw [htally]
    simp only [zero_add, add_zero]
    rw [if_neg hne, div_self hne, zero_div]
    norm_num
  have hh0 : 0 ≤ rawScoreOf text := by rw [hraw]; norm_num
  have hh3 : rawScoreOf text ≤ 0.3 := by rw [hraw]
  obtain ⟨hm0, hm4⟩ := modifiers_bounds_of_no_negation text hneg hh0 hh3
  have hacm : applyContextModifiers text (rawScoreOf text) < 0.5 := by linarith
  have hfs4 : finalScoreOf text ≤ 0.4 := by
    unfold finalScoreOf
    apply jsMax_le (by norm_num)
    exact le_trans (jsMin_le_right _ _) hm4
  have hfs : finalScoreOf text < 0.5 := by linarith
  refine ⟨hacm, hfs, ?_⟩
  show round3 (finalScoreOf text) < 0.5
  have : round3 (finalScoreOf text) ≤ round3 0.4 := round3_mono hfs4
  have h04 : round3 (0.4 : ℚ) = 0.4 := by with_unfolding_all decide
  rw [h04] at this
  linarith

/-- C3, witness: the amended claim applied at `"terrible"`. -/
theorem claim_C3_witness :
    applyContextModifiers "terrible" (rawScoreOf "terrible") < 0.5 ∧
    finalScoreOf "terrible" < 0.5 ∧
    (calculateSentimentScore "terrible").score < 0.5 :=
  claim_C3_amended "terrible" (by decide) (by decide) (by decide)

/-! ## Claim C4 -/

theorem batchLoop_eq_map (bs : ℕ) (hbs : 0 < bs) :
    ∀ (n : ℕ) (l : List JSVal), l.length ≤ n →
      batchLoop bs l = l.map analyzeSentiment := by
  intro n
  induction n with
  | zero =>
    intro l hl
    have hnil : l = [] := List.eq_nil_of_length_eq_zero (Nat.le_zero.mp hl)
    subst hnil; simp [batchLoop]
  | succ n ih =>
    intro l hl
    match l with
    | [] => simp [batchLoop]
    | x :: xs =>
      rw [batchLoop]
      rw [dif_neg (Nat.pos_iff_ne_zero.mp hbs)]
      have hdrop : ((x :: xs).drop bs).length ≤ n := by
        simp only [List.length_drop, List.length_cons]
        simp only [List.length_cons] at hl
        omega
      rw [ih _ hdrop, ← List.map_append, List.take_append_drop]

/-- C4: `analyzeBatch` returns exactly one result per input text, in input
order — the i-th result is `analyzeSentiment` of the i-th text — for every
positive batch size, and every non-array input yields `[]` rather than an
error. -/
theorem claim_C4 (bs : ℕ) (hbs : 0 < bs) :
    (∀ l : List JSVal, analyzeBatch (JSVal.varr l) bs = l.map analyzeSentiment) ∧
    (∀ v : JSVal, isArray v = false → analyzeBatch v bs = []) := by
  constructor
  · intro l
    show batchLoop bs l = l.map analyzeSentiment
    exact batchLoop_eq_map bs hbs l.length l (le_refl _)
  · intro v hv
    cases v <;> first
      | rfl
      | simp [isArray] at hv

/-- C4, witness: the spec's own example shape, `analyzeBatch(["a","b","c"], 2)`,
and a non-array input. -/
theorem claim_C4_witness :
    analyzeBatch (JSVal.varr [JSVal.vstr "a", JSVal.vstr "b", JSVal.vstr "c"]) 2 =
      [JSVal.vstr "a", JSVal.vstr "b", JSVal.vstr "c"].map analyzeSentiment ∧
    analyzeBatch JSVal.vnull 2 = [] :=
  ⟨(claim_C4 2 (by norm_num)).1 _, (claim_C4 2 (by norm_num)).2 JSVal.vnull rfl⟩

/-! ## Claim C1 -/

theorem finalScore_bounds (text : String) :
    0 ≤ finalScoreOf text ∧ finalScoreOf text ≤ 1 := by
  unfold finalScoreOf
  constructor
  · exact le_jsMax_left 0 _
  · exact jsMax_le (by norm_num) (jsMin_le_left _ _)

theorem round3_zero : round3 0 = 0 := by with_unfolding_all decide

theorem round3_one : round3 1 = 1 := by with_unfolding_all decide

theorem round3_095 : round3 0.95 = 0.95 := by with_unfolding_all decide

theorem confidence_bounds (text : String) :
    0.3 ≤ confidenceOf text ∧ confidenceOf text ≤ 0.95 := by
  unfold confidenceOf
  dsimp only
  split_ifs
  · norm_num
  · constructor
    · exact le_jsMin (by norm_num)
        (le_trans (by norm_num) (le_jsMax_left (0.4 : ℚ) _))
    · exact jsMin_le_left _ _

/-- A text of 64 positive-keyword tokens and 77 neutral-keyword tokens,
whose clamped final score is `1229/2050 ≈ 0.5995`. -/
def roundingBoundaryText : String :=
  String.intercalate " " (List.replicate 64 "excellent" ++ List.replicate 77 "okay")

set_option maxRecDepth 100000 in
/-- C1, counterexample: on `roundingBoundaryText` the clamped final score is
`1229/2050 ≈ 0.5995`, so the label is `NEUTRAL`, but three-decimal rounding
lifts the returned `score` field to exactly `0.6` — at which the claimed
threshold function says `POSITIVE`.  The returned label is therefore not the
claimed threshold function of the returned score. -/
theorem claim_C1_counterexample :
    (calculateSentimentScore roundingBoundaryText).score = 0.6 ∧
    (calculateSentimentScore roundingBoundaryText).label = "NEUTRAL" ∧
    (calculateSentimentScore roundingBoundaryText).label ≠
      (if (calculateSentimentScore roundingBoundaryText).score ≥ 0.6 then "POSITIVE"
       else if (calculateSentimentScore roundingBoundaryText).score ≤ 0.4 then "NEGATIVE"
       else "NEUTRAL") := by
  with_unfolding_all decide

/-- C1 (amended): for every input, the returned score lies in `[0,1]` and the
returned confidence in `[0.3, 0.95]` (for `calculateSentimentScore` and hence
for `analyzeSentiment`), and the label is the deterministic threshold
function of the final *pre-rounding* clamped score.  Because the returned
`score` field is rounded to three decimals after the label is computed, the
label need not agree with the threshold function of the returned score (see
the counterexample). -/
theorem claim_C1_amended (text : String) (v : JSVal) :
    (0 ≤ (calculateSentimentScore text).score ∧ (calculateSentimentScore text).score ≤ 1) ∧
    (0.3 ≤ (calculateSentimentScore text).confidence ∧
      (calculateSentimentScore text).confidence ≤ 0.95) ∧
    ((calculateSentimentScore text).label =
      if finalScoreOf text ≥ 0.6 then "POSITIVE"
      else if finalScoreOf text ≤ 0.4 then "NEGATIVE"
      else "NEUTRAL") ∧
    (0 ≤ (analyzeSentiment v).sentiment_score ∧ (analyzeSentiment v).sentiment_score ≤ 1) ∧
    (0.3 ≤ (analyzeSentiment v).confidence ∧ (analyzeSentiment v).confidence ≤ 0.95) := by
  have hscore : ∀ t : String, 0 ≤ (calculateSentimentScore t).score ∧
      (calculateSentimentScore t).score ≤ 1 := by
    intro t
    obtain ⟨h0, h1⟩ := finalScore_bounds t
    constructor
    · show 0 ≤ round3 (finalScoreOf t)
      calc (0 : ℚ) = round3 0 := round3_zero.symm
        _ ≤ round3 (finalScoreOf t) := round3_mono h0
    · show round3 (finalScoreOf t) ≤ 1
      calc round3 (finalScoreOf t) ≤ round3 1 := round3_mono h1
        _ = 1 := round3_one
  have hconf : ∀ t : String, 0.3 ≤ (calculateSentimentScore t).confidence ∧
      (calculateSentimentScore t).confidence ≤ 0.95 := by
    intro t
    obtain ⟨h0, h1⟩ := confidence_bounds t
    constructor
    · show (0.3 : ℚ) ≤ round3 (confidenceOf t)
      calc (0.3 : ℚ) = round3 0.3 := round3_03.symm
        _ ≤ round3 (confidenceOf t) := round3_mono h0
    · show round3 (confidenceOf t) ≤ 0.95
      calc round3 (confidenceOf t) ≤ round3 0.95 := round3_mono h1
        _ = 0.95 := round3_095
  exact ⟨hscore text, hconf text, rfl, hscore (preprocessText v), hconf (preprocessText v)⟩

/-! ## Claim C5 -/

theorem preprocessText_nonstring {v : JSVal} (h : isString v = false) :
    preprocessText v = "" := by
  cases v <;> first
    | rfl
    | simp [isString] at h

theorem calculateSentimentScore_empty :
    calculateSentimentScore "" = ⟨0.5, "NEUTRAL", 0.3, []⟩ := by
  with_unfolding_all decide

/-- C5, counterexample: two of the listed functions do raise.
`extractBrandMentions(null, ["apple"])` passes the `brands` guard and then
evaluates `null.toLowerCase()` (the source has no guard on `text`), and
`calculateSentimentScore(null)` evaluates `null.split(' ')` — both
`TypeError`s. -/
theorem claim_C5_counterexample :
    extractBrandMentions JSVal.vnull (JSVal.varr [JSVal.vstr "apple"]) =
      Except.error "TypeError" ∧
    calculateSentimentScoreJS JSVal.vnull = Except.error "TypeError" :=
  ⟨rfl, rfl⟩

/-- C5 (amended): `analyzeSentiment`, `analyzeBatch`, `extractKeywords` and
`getEmotionAnalysis` never raise and map every invalid (non-string /
non-array) input to the documented defaults (neutral score `0.5`,
confidence `0.3`, empty containers).  The two exceptions are
`calculateSentimentScore`, which throws `TypeError` on every non-string
argument, and `extractBrandMentions`, which returns `[]` for a non-array
`brands` but throws `TypeError` when `brands` is an array and `text` is not
a string. -/
theorem claim_C5_amended :
    (∀ v : JSVal, isString v = false → analyzeSentiment v = getDefaultSentiment) ∧
    (∀ (v : JSVal) (bs : ℕ), isArray v = false → analyzeBatch v bs = []) ∧
    (∀ (v : JSVal) (k : ℕ), isString v = false → extractKeywords v k = []) ∧
    (∀ v : JSVal, isString v = false →
      getEmotionAnalysis v =
        ⟨"neutral", [("joy", 0), ("anger", 0), ("fear", 0), ("sadness", 0),
                     ("surprise", 0), ("trust", 0)]⟩) ∧
    (∀ v : JSVal, isString v = false →
      calculateSentimentScoreJS v = Except.error "TypeError") ∧
    (∀ t b : JSVal, isArray b = false → extractBrandMentions t b = Except.ok []) ∧
    (∀ (t : JSVal) (l : List JSVal), isString t = false →
      extractBrandMentions t (JSVal.varr l) = Except.error "TypeError") := by
  refine ⟨?_, ?_, ?_, ?_, ?_, ?_, ?_⟩
  · intro v h
    show (let s := calculateSentimentScore (preprocessText v)
          (⟨s.score, s.label, s.confidence, s.keywords⟩ : SentimentOutput)) = _
    rw [preprocessText_nonstring h, calculateSentimentScore_empty]
    rfl
  · intro v bs h
    cases v <;> first
      | rfl
      | simp [isArray] at h
  · intro v k h
    have hfreq : wordFreqOf v = [] := by
      unfold wordFreqOf
      rw [preprocessText_nonstring h]
      decide
    unfold extractKeywords
    rw [hfreq]
    simp [sortDescJS]
  · intro v h
    have hes : emotionScoresOf v =
        [("joy", 0), ("anger", 0), ("fear", 0), ("sadness", 0),
         ("surprise", 0), ("trust", 0)] := by
      unfold emotionScoresOf
      rw [preprocessText_nonstring h]
      decide
    unfold getEmotionAnalysis
    rw [hes]
    decide
  · intro v h
    cases v <;> first
      | rfl
      | simp [isString] at h
  · intro t b h
    cases b <;> first
      | rfl
      | simp [isArray] at h
  · intro t l h
    cases t <;> first
      | rfl
      | simp [isString] at h

/-- C5, witness: the amended claim applied at `null` (and a string where an
array is required). -/
theorem claim_C5_witness :
    analyzeSentiment JSVal.vnull = getDefaultSentiment ∧
    analyzeBatch (JSVal.vstr "x") 32 = [] ∧
    extractKeywords JSVal.vnull 10 = [] ∧
    getEmotionAnalysis JSVal.vnull =
      ⟨"neutral", [("joy", 0), ("anger", 0), ("fear", 0), ("sadness", 0),
                   ("surprise", 0), ("trust", 0)]⟩ ∧
    calculateSentimentScoreJS JSVal.vnull = Except.error "TypeError" ∧
    extractBrandMentions JSVal.vnull JSVal.vnull = Except.ok [] ∧
    extractBrandMentions JSVal.vnull (JSVal.varr [JSVal.vstr "apple"]) =
      Except.error "TypeError" :=
  ⟨claim_C5_amended.1 JSVal.vnull rfl,
   claim_C5_amended.2.1 (JSVal.vstr "x") 32 rfl,
   claim_C5_amended.2.2.1 JSVal.vnull 10 rfl,
   claim_C5_amended.2.2.2.1 JSVal.vnull rfl,
   claim_C5_amended.2.2.2.2.1 JSVal.vnull rfl,
   claim_C5_amended.2.2.2.2.2.1 JSVal.vnull JSVal.vnull rfl,
   claim_C5_amended.2.2.2.2.2.2 JSVal.vnull [JSVal.vstr "apple"] rfl⟩

/-! ## Claim C7 -/

set_option maxRecDepth 10000 in
/-- C7, counterexample: on the `analyzeSentiment` path the preprocessed text
contains no `'!'` (punctuation is replaced by spaces before the modifiers
run), so the exclamation bonus never fires and the returned score stays at
the base `0.9` instead of being pushed toward `1`; and on the raw
`calculateSentimentScore` path only ONE positive keyword matches
(`"This"` is capitalized and `"amazing!"` carries the `'!'`), not two. -/
theorem claim_C7_counterexample :
    exclaimCount (preprocessText (JSVal.vstr "This product is excellent and amazing!")) = 0 ∧
    (analyzeSentiment (JSVal.vstr "This product is excellent and amazing!")).sentiment_score
      = 0.9 ∧
    applyContextModifiers
      (preprocessText (JSVal.vstr "This product is excellent and amazing!")) 0.9 = 0.9 ∧
    (calculateSentimentScore "This product is excellent and amazing!").keywords
      = ["excellent"] := by
  with_unfolding_all decide

set_option maxRecDepth 10000 in
/-- C7 (amended): for the input `"This product is excellent and amazing!"`
via `analyzeSentiment`, exactly two positive keywords match after
preprocessing (`positiveWeight = 1`, base score `0.8*1 + 0.2*0 + 0.1 = 0.9`);
the exclamation mark is removed by preprocessing, so no exclamation bonus
applies, and the returned result is score `0.9`, label `POSITIVE`,
confidence `0.8`, keywords `["excellent", "amazing"]`. -/
theorem claim_C7_amended :
    analyzeSentiment (JSVal.vstr "This product is excellent and amazing!") =
      ⟨0.9, "POSITIVE", 0.8, ["excellent", "amazing"]⟩ ∧
    (tallyOf (sentimentWords
      (preprocessText (JSVal.vstr "This product is excellent and amazing!")))).pos = 2 ∧
    rawScoreOf (preprocessText (JSVal.vstr "This product is excellent and amazing!"))
      = 0.9 := by
  with_unfolding_all decide

/-! ## Claim C10 -/

theorem sortDesc_head : ∀ l : List (String × ℕ), (sortDesc l).head? = firstMaxEntry l := by
  intro l
  induction l with
  | nil => rfl
  | cons x rest ih =>
    show (insertDesc x (sortDesc rest)).head? = _
    cases hm : sortDesc rest with
    | nil =>
      rw [hm] at ih
      show (insertDesc x []).head? = firstMaxEntry (x :: rest)
      unfold firstMaxEntry
      rw [← ih]
      rfl
    | cons y m =>
      rw [hm] at ih
      show (insertDesc x (y :: m)).head? = firstMaxEntry (x :: rest)
      unfold insertDesc firstMaxEntry
      rw [← ih]
      simp only [List.head?_cons]
      split_ifs <;> rfl

set_option maxRecDepth 10000 in
/-- C10, counterexample: `"happy angry"` produces a tie at the maximal count
(joy 1, anger 1), yet `getEmotionAnalysis` returns `"joy"`, not the claimed
`"neutral"` tie default — the stable sort leaves the first category of the
fixed insertion order in front. -/
theorem claim_C10_counterexample :
    (getEmotionAnalysis (JSVal.vstr "happy angry")).dominant_emotion = "joy" ∧
    emotionScoresOf (JSVal.vstr "happy angry") =
      [("joy", 1), ("anger", 1), ("fear", 0), ("sadness", 0),
       ("surprise", 0), ("trust", 0)] ∧
    "joy" ≠ "neutral" := by
  decide

/-- C10 (amended): `getEmotionAnalysis` counts, for each of the six fixed
emotion categories, how many of that category's keywords occur in the
preprocessed text, and returns as `dominant_emotion` the FIRST category (in
the fixed order joy, anger, fear, sadness, surprise, trust) achieving the
highest count; `"neutral"` is returned only when that highest count is zero,
not on ties. -/
theorem claim_C10_amended (v : JSVal) :
    (getEmotionAnalysis v).emotion_scores = emotionScoresOf v ∧
    (getEmotionAnalysis v).dominant_emotion =
      (match firstMaxEntry (emotionScoresOf v) with
       | some (e, c) => if c > 0 then e else "neutral"
       | none => "neutral") := by
  have hhead := sortDesc_head (emotionScoresOf v)
  unfold getEmotionAnalysis
  dsimp only
  cases hm : sortDesc (emotionScoresOf v) with
  | nil =>
    rw [hm] at hhead
    simp only [List.head?_nil] at hhead
    rw [← hhead]
    exact ⟨rfl, rfl⟩
  | cons p tail =>
    rw [hm] at hhead
    simp only [List.head?_cons] at hhead
    rw [← hhead]
    obtain ⟨e, c⟩ := p
    exact ⟨rfl, rfl⟩

/-! ## Claim C9 -/

/-- The number of occurrences of `w` among the length-`>3` tokens of the
preprocessed text (the frequency that `wordFreq` records). -/
def occCount (v : JSVal) (w : String) : ℕ :=
  ((jsSplitSpace (preprocessText v)).filter (fun t => t.length > 3)).count w

/-- Association-list lookup with default `0`, for the reference tables. -/
def lookupN : List (String × ℕ) → String → ℕ
  | [], _ => 0
  | (k, c) :: rest, w => if k = w then c else lookupN rest w

theorem lookupN_refBump_same : ∀ (l : List (String × ℕ)) (w : String),
    lookupN (refBump l w) w = lookupN l w + 1 := by
  intro l w
  induction l with
  | nil => simp [refBump, lookupN]
  | cons p rest ih =>
    obtain ⟨k, c⟩ := p
    unfold refBump
    split_ifs with hk
    · subst hk; simp [lookupN]
    · simp [lookupN, hk, ih]

theorem lookupN_refBump_other : ∀ (l : List (String × ℕ)) (w w2 : String), w ≠ w2 →
    lookupN (refBump l w) w2 = lookupN l w2 := by
  intro l w w2 hne
  induction l with
  | nil => simp [refBump, lookupN, hne]
  | cons p rest ih =>
    obtain ⟨k, c⟩ := p
    unfold refBump
    split_ifs with hk
    · subst hk; simp [lookupN, hne]
    · unfold lookupN; split_ifs <;> simp [ih]

theorem lookupN_foldl : ∀ (ws : List String) (acc : List (String × ℕ)) (w : String),
    lookupN (ws.foldl refFreqStep acc) w =
      lookupN acc w + (ws.filter (fun t => t.length > 3)).count w := by
  intro ws
  induction ws with
  | nil => intro acc w; simp
  | cons u ws ih =>
    intro acc w
    simp only [List.foldl_cons]
    rw [ih]
    unfold refFreqStep
    by_cases hlen : u.length > 3
    · rw [if_pos hlen]
      by_cases huw : u = w
      · subst huw
        rw [lookupN_refBump_same]
        rw [List.filter_cons_of_pos (by simpa using hlen)]
        simp [List.count_cons]
        omega
      · rw [lookupN_refBump_other _ _ _ huw]
        by_cases hkeep : (u.length > 3)
        · rw [List.filter_cons_of_pos (by simpa using hlen)]
          simp [List.count_cons, huw]
        · omega
    · rw [if_neg hlen]
      rw [List.filter_cons_of_neg (by simpa using hlen)]

theorem mem_refBump : ∀ {l : List (String × ℕ)} {w : String} {p : String × ℕ},
    p ∈ refBump l w → p ∈ l ∨ p.1 = w := by
  intro l
  induction l with
  | nil =>
    intro w p hp
    simp [refBump] at hp
    subst hp; simp
  | cons q rest ih =>
    intro w p hp
    obtain ⟨k, c⟩ := q
    unfold refBump at hp
    split_ifs at hp with hk
    · rcases List.mem_cons.mp hp with rfl | hmem
      · right; simpa using hk
      · left; exact List.mem_cons_of_mem _ hmem
    · rcases List.mem_cons.mp hp with rfl | hmem
      · left; exact List.mem_cons_self _ _
      · rcases ih hmem with hin | hw
        · left; exact List.mem_cons_of_mem _ hin
        · right; exact hw

theorem mem_foldl_refFreqStep : ∀ (ws : List String) (acc : List (String × ℕ)) (p : String × ℕ),
    p ∈ ws.foldl refFreqStep acc → p ∈ acc ∨ (p.1 ∈ ws ∧ p.1.length > 3) := by
  intro ws
  induction ws with
  | nil => intro acc p hp; exact Or.inl hp
  | cons u ws ih =>
    intro acc p hp
    simp only [List.foldl_cons] at hp
    rcases ih _ _ hp with hacc | ⟨hmem, hlen⟩
    · unfold refFreqStep at hacc
      split_ifs at hacc with hlen
      · rcases mem_refBump hacc with hin | hw
        · exact Or.inl hin
        · exact Or.inr ⟨by simp [hw], by rwa [hw]⟩
      · exact Or.inl hacc
    · exact Or.inr ⟨by simp [hmem], hlen⟩

/-- The keys of an association list. -/
def keysOf (l : List (String × ℕ)) : List String := l.map (fun p => p.1)

theorem keysOf_refBump (l : List (String × ℕ)) (w : String) :
    keysOf (refBump l w) = keysOf l ∨ keysOf (refBump l w) = keysOf l ++ [w] := by
  induction l with
  | nil => right; rfl
  | cons q rest ih =>
    obtain ⟨k, c⟩ := q
    unfold refBump
    split_ifs with hk
    · left; rfl
    · rcases ih with h | h
      · left; simp [keysOf] at h ⊢; exact h
      · right; simp [keysOf] at h ⊢; exact h

theorem keysOf_refBump_mem {l : List (String × ℕ)} {w : String} (hw : w ∈ keysOf l) :
    keysOf (refBump l w) = keysOf l := by
  induction l with
  | nil => simp [keysOf] at hw
  | cons q rest ih =>
    obtain ⟨k, c⟩ := q
    unfold refBump
    split_ifs with hk
    · rfl
    · have hw2 : w ∈ k :: keysOf rest := hw
      have hmem : w ∈ keysOf rest := by
        rcases List.mem_cons.mp hw2 with heq | hmem
        · exact absurd heq.symm hk
        · exact hmem
      show k :: keysOf (refBump rest w) = k :: keysOf rest
      rw [ih hmem]

theorem keysOf_refBump_not_mem {l : List (String × ℕ)} {w : String} (hw : w ∉ keysOf l) :
    keysOf (refBump l w) = keysOf l ++ [w] := by
  induction l with
  | nil => rfl
  | cons q rest ih =>
    obtain ⟨k, c⟩ := q
    unfold refBump
    split_ifs with hk
    · exfalso
      apply hw
      show w ∈ k :: keysOf rest
      subst hk
      exact List.mem_cons_self _ _
    · have hw2 : w ∉ keysOf rest := by
        intro hc
        apply hw
        show w ∈ k :: keysOf rest
        exact List.mem_cons_of_mem _ hc
      show k :: keysOf (refBump rest w) = (k :: keysOf rest) ++ [w]
      rw [ih hw2]
      rfl

theorem nodup_keysOf_refBump {l : List (String × ℕ)} (hnd : (keysOf l).Nodup) (w : String) :
    (keysOf (refBump l w)).Nodup := by
  by_cases hw : w ∈ keysOf l
  · rwa [keysOf_refBump_mem hw]
  · rw [keysOf_refBump_not_mem hw]
    rw [List.nodup_append]
    exact ⟨hnd, List.nodup_singleton w, by simpa using hw⟩

theorem nodup_keysOf_foldl : ∀ (ws : List String) (acc : List (String × ℕ)),
    (keysOf acc).Nodup → (keysOf (ws.foldl refFreqStep acc)).Nodup := by
  intro ws
  induction ws with
  | nil => intro acc h; exact h
  | cons u ws ih =>
    intro acc h
    simp only [List.foldl_cons]
    apply ih
    unfold refFreqStep
    split_ifs
    · exact nodup_keysOf_refBump h u
    · exact h

theorem snd_eq_lookupN : ∀ {l : List (String × ℕ)}, (keysOf l).Nodup →
    ∀ {p : String × ℕ}, p ∈ l → p.2 = lookupN l p.1 := by
  intro l
  induction l with
  | nil => intro _ p hp; simp at hp
  | cons q rest ih =>
    intro hnd p hp
    obtain ⟨k, c⟩ := q
    simp only [keysOf, List.map_cons, List.nodup_cons] at hnd
    obtain ⟨hk1, hk2⟩ := hnd
    rcases List.mem_cons.mp hp with rfl | hmem
    · simp [lookupN]
    · unfold lookupN
      split_ifs with hk
      · exfalso
        apply hk1
        rw [hk]
        exact List.mem_map.mpr ⟨p, hmem, rfl⟩
      · exact ih hk2 hmem

theorem mem_insertDesc {a x : String × ℕ} :
    ∀ {l : List (String × ℕ)}, a ∈ insertDesc x l ↔ a = x ∨ a ∈ l := by
  intro l
  induction l with
  | nil => simp [insertDesc]
  | cons y m ih =>
    unfold insertDesc
    split_ifs
    · simp
    · rw [List.mem_cons, ih, List.mem_cons]
      tauto

theorem mem_sortDesc {a : String × ℕ} :
    ∀ {l : List (String × ℕ)}, a ∈ sortDesc l ↔ a ∈ l := by
  intro l
  induction l with
  | nil => simp [sortDesc]
  | cons x m ih =>
    show a ∈ insertDesc x (sortDesc m) ↔ _
    rw [mem_insertDesc, ih, List.mem_cons]

theorem pairwise_insertDesc {x : String × ℕ} :
    ∀ {l : List (String × ℕ)}, List.Pairwise (fun p q => q.2 ≤ p.2) l →
      List.Pairwise (fun p q => q.2 ≤ p.2) (insertDesc x l) := by
  intro l
  induction l with
  | nil => intro _; simp [insertDesc]
  | cons y m ih =>
    intro h
    rw [List.pairwise_cons] at h
    obtain ⟨hy, hm⟩ := h
    unfold insertDesc
    split_ifs with hxy
    · rw [List.pairwise_cons]
      refine ⟨?_, List.pairwise_cons.mpr ⟨hy, hm⟩⟩
      intro b hb
      rcases List.mem_cons.mp hb with rfl | hb2
      · exact hxy
      · exact le_trans (hy b hb2) hxy
    · rw [List.pairwise_cons]
      refine ⟨?_, ih hm⟩
      intro b hb
      rcases mem_insertDesc.mp hb with rfl | hb2
      · omega
      · exact hy b hb2

theorem pairwise_sortDesc :
    ∀ l : List (String × ℕ), List.Pairwise (fun p q => q.2 ≤ p.2) (sortDesc l) := by
  intro l
  induction l with
  | nil => simp [sortDesc]
  | cons x m ih => exact pairwise_insertDesc ih

theorem mem_bumpJS : ∀ {l : List (String × JSCount)} {w : String} {p : String × JSCount},
    p ∈ bump l w → p ∈ l ∨ p.1 = w := by
  intro l
  induction l with
  | nil =>
    intro w p hp
    unfold bump at hp
    split_ifs at hp
    · simp at hp
    · simp at hp; subst hp; simp
    · simp at hp; subst hp; simp
  | cons q rest ih =>
    intro w p hp
    obtain ⟨k, c⟩ := q
    unfold bump at hp
    split_ifs at hp with hk
    · rcases List.mem_cons.mp hp with rfl | hmem
      · right; simpa using hk
      · left; exact List.mem_cons_of_mem _ hmem
    · rcases List.mem_cons.mp hp with rfl | hmem
      · left; exact List.mem_cons_self _ _
      · rcases ih hmem with hin | hw
        · left; exact List.mem_cons_of_mem _ hin
        · right; exact hw

theorem mem_foldl_freqStepJS : ∀ (ws : List String) (acc : List (String × JSCount))
    (p : String × JSCount),
    p ∈ ws.foldl freqStep acc → p ∈ acc ∨ (p.1 ∈ ws ∧ p.1.length > 3) := by
  intro ws
  induction ws with
  | nil => intro acc p hp; exact Or.inl hp
  | cons u ws ih =>
    intro acc p hp
    simp only [List.foldl_cons] at hp
    rcases ih _ _ hp with hacc | ⟨hmem, hlen⟩
    · unfold freqStep at hacc
      split_ifs at hacc with hlen
      · rcases mem_bumpJS hacc with hin | hw
        · exact Or.inl hin
        · exact Or.inr ⟨by simp [hw], by rwa [hw]⟩
      · exact Or.inl hacc
    · exact Or.inr ⟨by simp [hmem], hlen⟩

theorem mem_insertDescJS {a x : String × JSCount} :
    ∀ {l : List (String × JSCount)}, a ∈ insertDescJS x l ↔ a = x ∨ a ∈ l := by
  intro l
  induction l with
  | nil => simp [insertDescJS]
  | cons y m ih =>
    unfold insertDescJS
    split_ifs
    · simp
    · rw [List.mem_cons, ih, List.mem_cons]
      tauto

theorem mem_sortDescJS {a : String × JSCount} :
    ∀ {l : List (String × JSCount)}, a ∈ sortDescJS l ↔ a ∈ l := by
  intro l
  induction l with
  | nil => simp [sortDescJS]
  | cons x m ih =>
    show a ∈ insertDescJS x (sortDescJS m) ↔ _
    rw [mem_insertDescJS, ih, List.mem_cons]

theorem bump_lift {w : String} (hw : isProtoName w = false) :
    ∀ l : List (String × ℕ), bump (l.map liftNum) w = (refBump l w).map liftNum := by
  have hw1 : (w == "__proto__") = false := by
    cases h : (w == "__proto__") with
    | false => rfl
    | true => simp [isProtoName, h] at hw
  have hw2 : objectProtoFns.contains w = false := by
    cases h : objectProtoFns.contains w with
    | false => rfl
    | true =>
      exfalso
      have htrue : isProtoName w = true := by
        simp [isProtoName]
        exact Or.inr (by simpa using h)
      rw [hw] at htrue
      exact Bool.false_ne_true htrue
  intro l
  induction l with
  | nil =>
    show bump [] w = _
    unfold bump
    rw [if_neg (by simpa using hw1), if_neg (by rw [hw2]; simp)]
    rfl
  | cons q rest ih =>
    obtain ⟨k, c⟩ := q
    show bump ((k, JSCount.num c) :: rest.map liftNum) w = _
    unfold bump refBump
    split_ifs with hk
    · rfl
    · simp only [List.map_cons]
      rw [ih]
      rfl

theorem foldl_lift : ∀ (ws : List String) (acc : List (String × ℕ)),
    (∀ w ∈ ws, w.length > 3 → isProtoName w = false) →
    ws.foldl freqStep (acc.map liftNum) = (ws.foldl refFreqStep acc).map liftNum := by
  intro ws
  induction ws with
  | nil => intro acc _; rfl
  | cons u ws ih =>
    intro acc hclean
    simp only [List.foldl_cons]
    have hstep : freqStep (acc.map liftNum) u = (refFreqStep acc u).map liftNum := by
      unfold freqStep refFreqStep
      split_ifs with hlen
      · exact bump_lift (hclean u (List.mem_cons_self _ _) hlen) acc
      · rfl
    rw [hstep]
    exact ih _ (fun w hw hl => hclean w (List.mem_cons_of_mem _ hw) hl)

theorem insertDescJS_lift (x : String × ℕ) :
    ∀ l : List (String × ℕ),
      insertDescJS (liftNum x) (l.map liftNum) = (insertDesc x l).map liftNum := by
  intro l
  induction l with
  | nil => rfl
  | cons y m ih =>
    show insertDescJS (liftNum x) (liftNum y :: m.map liftNum) = _
    unfold insertDescJS insertDesc
    by_cases hxy : x.2 ≥ y.2
    · rw [if_pos (by simp [jsCmpKeepsBefore, liftNum, hxy]), if_pos hxy]
      rfl
    · rw [if_neg (by simp [jsCmpKeepsBefore, liftNum, hxy]), if_neg hxy]
      simp only [List.map_cons]
      rw [ih]

theorem sortDescJS_lift : ∀ l : List (String × ℕ),
    sortDescJS (l.map liftNum) = (sortDesc l).map liftNum := by
  intro l
  induction l with
  | nil => rfl
  | cons x m ih =>
    show insertDescJS (liftNum x) (sortDescJS (m.map liftNum)) = _
    rw [ih, insertDescJS_lift]
    rfl

set_option maxRecDepth 10000 in
/-- C9, counterexample: the token `"constructor"` names an inherited
`Object.prototype` member, so `wordFreq["constructor"]` reads a truthy
function and `(fn || 0) + 1` stores a garbage string instead of a count;
the sort comparator `b - a` is then `NaN` (treated as equal), and
`extractKeywords("constructor word word", 10)` returns
`["constructor", "word"]` — true occurrence counts `1` then `2`, NOT
ordered by descending frequency. -/
theorem claim_C9_counterexample :
    extractKeywords (JSVal.vstr "constructor word word") 10 =
      ["constructor", "word"] ∧
    occCount (JSVal.vstr "constructor word word") "constructor" = 1 ∧
    occCount (JSVal.vstr "constructor word word") "word" = 2 ∧
    ¬ List.Pairwise
      (fun a b => occCount (JSVal.vstr "constructor word word") b ≤
        occCount (JSVal.vstr "constructor word word") a)
      (extractKeywords (JSVal.vstr "constructor word word") 10) := by
  decide

/-- C9 (amended): `extractKeywords` returns at most `maxKeywords` words,
each a length-`>3` token of the preprocessed text, and
`extractKeywords "" k` is empty (the model is total, hence never throws);
the words are ordered by descending true frequency PROVIDED no
length-`>3` token names an `Object.prototype` member (`"constructor"`,
`"__proto__"`, ...).  On such tokens the inherited prototype value
corrupts the stored count into a non-numeric string and the `NaN`
comparator defeats the ordering (see the counterexample). -/
theorem claim_C9_amended (v : JSVal) (k : ℕ) :
    (extractKeywords v k).length ≤ k ∧
    (∀ w ∈ extractKeywords v k,
      w.length > 3 ∧ w ∈ jsSplitSpace (preprocessText v)) ∧
    ((∀ w ∈ jsSplitSpace (preprocessText v), w.length > 3 → isProtoName w = false) →
      List.Pairwise (fun a b => occCount v b ≤ occCount v a) (extractKeywords v k)) ∧
    extractKeywords (JSVal.vstr "") k = [] := by
  refine ⟨?_, ?_, ?_, ?_⟩
  · unfold extractKeywords
    rw [List.length_map, List.length_take]
    omega
  · intro w hw
    unfold extractKeywords at hw
    rcases List.mem_map.mp hw with ⟨p, hp, rfl⟩
    have hsort : p ∈ sortDescJS (wordFreqOf v) :=
      (List.take_sublist k _).subset hp
    have hfreq : p ∈ wordFreqOf v := mem_sortDescJS.mp hsort
    rcases mem_foldl_freqStepJS _ [] p hfreq with hnil | ⟨hmem, hlen⟩
    · simp at hnil
    · exact ⟨hlen, hmem⟩
  · intro hclean
    have hval : ∀ p ∈ sortDesc (refWordFreq v), p.2 = occCount v p.1 := by
      intro p hp
      have hmem : p ∈ refWordFreq v := mem_sortDesc.mp hp
      have hnd : (keysOf (refWordFreq v)).Nodup :=
        nodup_keysOf_foldl _ [] (by simp [keysOf])
      have h1 : p.2 = lookupN (refWordFreq v) p.1 := snd_eq_lookupN hnd hmem
      have h2 : lookupN (refWordFreq v) p.1 = occCount v p.1 := by
        unfold refWordFreq occCount
        rw [lookupN_foldl]
        simp [lookupN]
      rw [h1, h2]
    have htab : wordFreqOf v = (refWordFreq v).map liftNum := by
      unfold wordFreqOf refWordFreq
      have hnil : ([] : List (String × JSCount)) = ([] : List (String × ℕ)).map liftNum := rfl
      rw [hnil, foldl_lift _ _ hclean]
    have hresult : extractKeywords v k =
        ((sortDesc (refWordFreq v)).take k).map (fun p => p.1) := by
      unfold extractKeywords
      rw [htab, sortDescJS_lift, ← List.map_take, List.map_map]
      rfl
    rw [hresult]
    rw [List.pairwise_map]
    have hpw : List.Pairwise (fun p q => q.2 ≤ p.2)
        ((sortDesc (refWordFreq v)).take k) :=
      List.Pairwise.sublist (List.take_sublist k _) (pairwise_sortDesc _)
    apply List.Pairwise.imp_of_mem ?_ hpw
    intro a b ha hb hle
    have hasort : a ∈ sortDesc (refWordFreq v) := (List.take_sublist k _).subset ha
    have hbsort : b ∈ sortDesc (refWordFreq v) := (List.take_sublist k _).subset hb
    rw [← hval a hasort, ← hval b hbsort]
    exact hle
  · have hfreq : wordFreqOf (JSVal.vstr "") = [] := by decide
    unfold extractKeywords
    rw [hfreq]
    simp [sortDescJS]

/-- C9, witness: the amended claim applied at `"alpha beta beta"`, whose
tokens miss the prototype chain, discharging the cleanliness hypothesis. -/
theorem claim_C9_witness :
    (extractKeywords (JSVal.vstr "alpha beta beta") 10).length ≤ 10 ∧
    (∀ w ∈ extractKeywords (JSVal.vstr "alpha beta beta") 10,
      w.length > 3 ∧ w ∈ jsSplitSpace (preprocessText (JSVal.vstr "alpha beta beta"))) ∧
    List.Pairwise
      (fun a b => occCount (JSVal.vstr "alpha beta beta") b ≤
        occCount (JSVal.vstr "alpha beta beta") a)
      (extractKeywords (JSVal.vstr "alpha beta beta") 10) ∧
    extractKeywords (JSVal.vstr "") 10 = [] := by
  have h := claim_C9_amended (JSVal.vstr "alpha beta beta") 10
  exact ⟨h.1, h.2.1, h.2.2.1 (by decide), h.2.2.2⟩

/-! ## Claim C8: character-level lemmas -/

theorem char_ofNat_toNat (n : ℕ) (h : n < 55296) : (Char.ofNat n).toNat = n := by
  have hv : n.isValidChar := Or.inl h
  simp [Char.ofNat, hv, Char.toNat, Char.ofNatAux, UInt32.toNat, BitVec.toNat_ofNatLt]

theorem lowerChar_fix {c : Char} (h : ¬(65 ≤ c.toNat ∧ c.toNat ≤ 90)) : lowerChar c = c := by
  unfold lowerChar
  rw [if_neg]
  simpa using h

theorem lowerChar_toNat {c : Char} (h : 65 ≤ c.toNat ∧ c.toNat ≤ 90) :
    (lowerChar c).toNat = c.toNat + 32 := by
  unfold lowerChar
  rw [if_pos (by simpa using h)]
  exact char_ofNat_toNat _ (by omega)

theorem lowerChar_idem (c : Char) : lowerChar (lowerChar c) = lowerChar c := by
  by_cases h : 65 ≤ c.toNat ∧ c.toNat ≤ 90
  · apply lowerChar_fix
    rw [lowerChar_toNat h]
    omega
  · rw [lowerChar_fix h, lowerChar_fix h]

theorem stripPunct_keep {c : Char} (h : (isWordChar c || isSpaceJS c) = true) :
    stripPunct c = c := by
  unfold stripPunct
  rw [if_pos h]

theorem stripPunct_space {c : Char} (h : (isWordChar c || isSpaceJS c) = false) :
    stripPunct c = ' ' := by
  unfold stripPunct
  rw [if_neg (by simp [h])]

theorem stripPunct_class (c : Char) :
    (isWordChar (stripPunct c) || isSpaceJS (stripPunct c)) = true := by
  unfold stripPunct
  split_ifs with h
  · exact h
  · decide

/-- The normalization `stripPunct ∘ lowerChar` is idempotent per
character. -/
theorem charNorm_idem (c : Char) :
    stripPunct (lowerChar (stripPunct (lowerChar c))) = stripPunct (lowerChar c) := by
  by_cases h : (isWordChar (lowerChar c) || isSpaceJS (lowerChar c)) = true
  · rw [stripPunct_keep h, lowerChar_idem c, stripPunct_keep h]
  · have hf : (isWordChar (lowerChar c) || isSpaceJS (lowerChar c)) = false :=
      Bool.eq_false_iff.mpr h
    rw [stripPunct_space hf]
    decide

/-! ## Claim C8: group-structure lemmas -/

theorem groupsAux_chars : ∀ (l : List Char) (g : List Char), g ∈ groupsAux l →
    ∀ c ∈ g, c ∈ l ∧ isSpaceJS c = false := by
  intro l
  induction l with
  | nil => intro g hg; simp [groupsAux] at hg
  | cons a rest ih =>
    intro g hg c hc
    unfold groupsAux at hg
    split_ifs at hg with hs
    · rcases List.mem_cons.mp hg with rfl | hg2
      · simp at hc
      · obtain ⟨h1, h2⟩ := ih g hg2 c hc
        exact ⟨List.mem_cons_of_mem _ h1, h2⟩
    · cases hrest : groupsAux rest with
      | nil =>
        rw [hrest] at hg
        simp at hg
        subst hg
        simp at hc
        subst hc
        exact ⟨List.mem_cons_self _ _, Bool.eq_false_iff.mpr hs⟩
      | cons g0 gs =>
        rw [hrest] at hg
        rcases List.mem_cons.mp hg with rfl | hg2
        · rcases List.mem_cons.mp hc with rfl | hc2
          · exact ⟨List.mem_cons_self _ _, Bool.eq_false_iff.mpr hs⟩
          · obtain ⟨h1, h2⟩ := ih g0 (by rw [hrest]; exact List.mem_cons_self _ _) c hc2
            exact ⟨List.mem_cons_of_mem _ h1, h2⟩
        · obtain ⟨h1, h2⟩ := ih g (by rw [hrest]; exact List.mem_cons_of_mem _ hg2) c hc
          exact ⟨List.mem_cons_of_mem _ h1, h2⟩

theorem wordGroups_chars {l : List Char} {g : List Char} (hg : g ∈ wordGroups l) :
    g ≠ [] ∧ ∀ c ∈ g, c ∈ l ∧ isSpaceJS c = false := by
  obtain ⟨hmem, hne⟩ := List.mem_filter.mp hg
  constructor
  · intro hnil
    rw [hnil] at hne
    simp at hne
  · exact groupsAux_chars l g hmem

theorem mem_joinSp : ∀ (gs : List (List Char)) (c : Char), c ∈ joinSp gs →
    c = ' ' ∨ ∃ g ∈ gs, c ∈ g := by
  intro gs
  induction gs with
  | nil => intro c hc; simp [joinSp] at hc
  | cons g gs ih =>
    intro c hc
    cases gs with
    | nil =>
      right
      exact ⟨g, by simp, by simpa [joinSp] using hc⟩
    | cons g2 rest =>
      rw [joinSp] at hc
      rcases List.mem_append.mp hc with h1 | h2
      · right; exact ⟨g, by simp, h1⟩
      · rcases List.mem_cons.mp h2 with rfl | h3
        · left; rfl
        · rcases ih c h3 with h4 | ⟨g3, hg3, hc3⟩
          · left; exact h4
          · right; exact ⟨g3, by simp [hg3], hc3⟩

/-- Every character of a preprocessed string is a word character or a single
space: punctuation (in particular `'?'` and `'!'`) cannot survive
`preprocessText`. -/
theorem preprocess_chars (s : String) :
    ∀ c ∈ (preprocessString s).toList, isWordChar c = true ∨ c = ' ' := by
  intro c hc
  have hc2 : c ∈ joinSp (wordGroups ((s.toList.map lowerChar).map stripPunct)) := hc
  rcases mem_joinSp _ c hc2 with rfl | ⟨g, hg, hcg⟩
  · right; rfl
  · obtain ⟨_, hchars⟩ := wordGroups_chars hg
    obtain ⟨hmem, hnsp⟩ := hchars c hcg
    rcases List.mem_map.mp hmem with ⟨c0, _, rfl⟩
    have hclass := stripPunct_class c0
    rcases (Bool.or_eq_true _ _).mp hclass with hw | hs
    · left; exact hw
    · rw [hnsp] at hs
      exact absurd hs (by simp)

theorem isSpaceJS_space : isSpaceJS ' ' = true := by decide

theorem groupsAux_cons_space {c : Char} (h : isSpaceJS c = true) (l : List Char) :
    groupsAux (c :: l) = [] :: groupsAux l := by
  simp [groupsAux, h]

theorem groupsAux_cons_nonspace {c : Char} (h : isSpaceJS c = false) (l : List Char) :
    groupsAux (c :: l) =
      (match groupsAux l with
       | [] => [[c]]
       | g :: gs => (c :: g) :: gs) := by
  simp [groupsAux, h]

theorem groupsAux_word_sep : ∀ (g : List Char), g ≠ [] →
    (∀ c ∈ g, isSpaceJS c = false) → ∀ l : List Char,
    groupsAux (g ++ ' ' :: l) = g :: groupsAux l := by
  intro g
  induction g with
  | nil => intro h; exact absurd rfl h
  | cons a g2 ih =>
    intro _ hsp l
    have ha : isSpaceJS a = false := hsp a (List.mem_cons_self _ _)
    cases g2 with
    | nil =>
      show groupsAux (a :: ' ' :: l) = [a] :: groupsAux l
      rw [groupsAux_cons_nonspace ha, groupsAux_cons_space isSpaceJS_space]
    | cons b g3 =>
      have hrec := ih (by simp) (fun c hc => hsp c (List.mem_cons_of_mem _ hc)) l
      show groupsAux (a :: ((b :: g3) ++ ' ' :: l)) = (a :: b :: g3) :: groupsAux l
      rw [groupsAux_cons_nonspace ha, hrec]

theorem groupsAux_word : ∀ (g : List Char), g ≠ [] →
    (∀ c ∈ g, isSpaceJS c = false) → groupsAux g = [g] := by
  intro g
  induction g with
  | nil => intro h; exact absurd rfl h
  | cons a g2 ih =>
    intro _ hsp
    have ha : isSpaceJS a = false := hsp a (List.mem_cons_self _ _)
    cases g2 with
    | nil =>
      show groupsAux [a] = [[a]]
      rw [groupsAux_cons_nonspace ha]
      rfl
    | cons b g3 =>
      have hrec := ih (by simp) (fun c hc => hsp c (List.mem_cons_of_mem _ hc))
      show groupsAux (a :: b :: g3) = [a :: b :: g3]
      rw [groupsAux_cons_nonspace ha, hrec]

theorem wordGroups_joinSp : ∀ gs : List (List Char),
    (∀ g ∈ gs, g ≠ [] ∧ ∀ c ∈ g, isSpaceJS c = false) →
    wordGroups (joinSp gs) = gs := by
  intro gs
  induction gs with
  | nil => intro _; rfl
  | cons g gs ih =>
    intro h
    obtain ⟨hne, hsp⟩ := h g (List.mem_cons_self _ _)
    have hg_keep : (!g.isEmpty) = true := by
      cases g with
      | nil => exact absurd rfl hne
      | cons c t => rfl
    cases gs with
    | nil =>
      show wordGroups g = [g]
      unfold wordGroups
      rw [groupsAux_word g hne hsp]
      simp [hg_keep]
    | cons g2 rest =>
      show wordGroups (g ++ ' ' :: joinSp (g2 :: rest)) = g :: g2 :: rest
      unfold wordGroups
      rw [groupsAux_word_sep g hne hsp]
      rw [List.filter_cons, if_pos hg_keep]
      have := ih (fun x hx => h x (List.mem_cons_of_mem _ hx))
      unfold wordGroups at this
      rw [this]

theorem map_joinSp (f : Char → Char) (hf : f ' ' = ' ') :
    ∀ gs : List (List Char), (joinSp gs).map f = joinSp (gs.map (List.map f)) := by
  intro gs
  induction gs with
  | nil => rfl
  | cons g gs ih =>
    cases gs with
    | nil => rfl
    | cons g2 rest =>
      show (g ++ ' ' :: joinSp (g2 :: rest)).map f = _
      rw [List.map_append, List.map_cons, hf, ih]
      rfl

theorem map_fix {f : Char → Char} : ∀ {l : List Char}, (∀ c ∈ l, f c = c) →
    l.map f = l := by
  intro l
  induction l with
  | nil => intro _; rfl
  | cons a t ih =>
    intro h
    rw [List.map_cons, h a (List.mem_cons_self _ _),
      ih (fun c hc => h c (List.mem_cons_of_mem _ hc))]

/-- `preprocessText` is idempotent on strings: normalizing a normalized
string changes nothing. -/
theorem preprocessString_idem (s : String) :
    preprocessString (preprocessString s) = preprocessString s := by
  have hGprops : ∀ g ∈ wordGroups ((s.toList.map lowerChar).map stripPunct),
      g ≠ [] ∧ ∀ c ∈ g, isSpaceJS c = false :=
    fun g hg => ⟨(wordGroups_chars hg).1, fun c hc => ((wordGroups_chars hg).2 c hc).2⟩
  have hLfix : ∀ c ∈ joinSp (wordGroups ((s.toList.map lowerChar).map stripPunct)),
      stripPunct (lowerChar c) = c := by
    intro c hc
    rcases mem_joinSp _ c hc with rfl | ⟨g, hg, hcg⟩
    · decide
    · obtain ⟨hmem, _⟩ := (wordGroups_chars hg).2 c hcg
      rw [List.map_map] at hmem
      rcases List.mem_map.mp hmem with ⟨c0, _, rfl⟩
      simpa [Function.comp] using charNorm_idem c0
  show String.mk (joinSp (wordGroups
      (((preprocessString s).toList.map lowerChar).map stripPunct))) = _
  have hmaps : ((preprocessString s).toList.map lowerChar).map stripPunct =
      (preprocessString s).toList := by
    rw [List.map_map]
    exact map_fix (fun c hc => hLfix c hc)
  rw [hmaps]
  show String.mk (joinSp (wordGroups
      (joinSp (wordGroups ((s.toList.map lowerChar).map stripPunct))))) = _
  rw [wordGroups_joinSp _ hGprops]
  rfl

theorem preprocessText_vstr (s : String) :
    preprocessText (JSVal.vstr s) = preprocessString s := by
  show (if s = "" then "" else preprocessString s) = preprocessString s
  split_ifs with h
  · rw [h]; rfl
  · rfl

theorem preprocessText_idem (v : JSVal) :
    preprocessString (preprocessText v) = preprocessText v := by
  cases v with
  | vstr s =>
    rw [preprocessText_vstr]
    exact preprocessString_idem s
  | vnull => rfl
  | vundef => rfl
  | vbool b => rfl
  | vnum q => rfl
  | varr l => rfl

theorem groupsAux_append_space : ∀ m : List Char,
    groupsAux (m ++ [' ']) = groupsAux m ∨
      groupsAux (m ++ [' ']) = groupsAux m ++ [[]] := by
  intro m
  induction m with
  | nil => right; rfl
  | cons a m ih =>
    by_cases hs : isSpaceJS a = true
    · have hstep := groupsAux_cons_space hs (m ++ [' '])
      have hstep2 := groupsAux_cons_space hs m
      rcases ih with h | h
      · left
        show groupsAux (a :: (m ++ [' '])) = groupsAux (a :: m)
        rw [hstep, hstep2, h]
      · right
        show groupsAux (a :: (m ++ [' '])) = groupsAux (a :: m) ++ [[]]
        rw [hstep, hstep2, h]
        rfl
    · have hs2 : isSpaceJS a = false := Bool.eq_false_iff.mpr hs
      have hstep := groupsAux_cons_nonspace hs2 (m ++ [' '])
      have hstep2 := groupsAux_cons_nonspace hs2 m
      rcases ih with h | h
      · left
        show groupsAux (a :: (m ++ [' '])) = groupsAux (a :: m)
        rw [hstep, hstep2, h]
      · cases hG : groupsAux m with
        | nil =>
          left
          show groupsAux (a :: (m ++ [' '])) = groupsAux (a :: m)
          rw [hstep, hstep2, h, hG]
          rfl
        | cons g0 gs =>
          right
          show groupsAux (a :: (m ++ [' '])) = groupsAux (a :: m) ++ [[]]
          rw [hstep, hstep2, h, hG]
          rfl

theorem wordGroups_append_space (m : List Char) :
    wordGroups (m ++ [' ']) = wordGroups m := by
  unfold wordGroups
  rcases groupsAux_append_space m with h | h
  · rw [h]
  · rw [h, List.filter_append]
    simp

theorem preprocessString_push (t : String) (c : Char)
    (hlc : lowerChar c = c) (hstrip : stripPunct c = ' ') :
    preprocessString (t.push c) = preprocessString t := by
  unfold preprocessString
  have hdata : (t.push c).toList = t.toList ++ [c] := rfl
  rw [hdata, List.map_append, List.map_append]
  simp only [List.map_cons, List.map_nil]
  rw [hlc, hstrip, wordGroups_append_space]

theorem hasSubList_single : ∀ (l : List Char) (c : Char),
    hasSubList l [c] = true → c ∈ l := by
  intro l c
  induction l with
  | nil => intro h; simp [hasSubList] at h
  | cons a t ih =>
    intro h
    unfold hasSubList leadsWith at h
    rcases (Bool.or_eq_true _ _).mp h with h1 | h2
    · have : c = a := by
        rcases (Bool.and_eq_true _ _).mp h1 with ⟨hca, _⟩
        exact eq_of_beq hca
      rw [this]
      exact List.mem_cons_self _ _
    · exact List.mem_cons_of_mem _ (ih h2)

theorem preprocessText_no_question (v : JSVal) :
    strIncludes (preprocessText v) "?" = false := by
  have hgen : ∀ s : String, strIncludes (preprocessString s) "?" = false := by
    intro s
    cases hb : strIncludes (preprocessString s) "?" with
    | false => rfl
    | true =>
      exfalso
      have hmem : '?' ∈ (preprocessString s).toList := hasSubList_single _ _ hb
      rcases preprocess_chars s '?' hmem with hw | hsp
      · simp [isWordChar] at hw
      · simp at hsp
  cases v with
  | vstr s => rw [preprocessText_vstr]; exact hgen s
  | vnull => rfl
  | vundef => rfl
  | vbool b => rfl
  | vnum q => rfl
  | varr l => rfl

theorem preprocessText_no_exclaim (v : JSVal) :
    exclaimCount (preprocessText v) = 0 := by
  have hgen : ∀ s : String, exclaimCount (preprocessString s) = 0 := by
    intro s
    unfold exclaimCount
    rw [List.length_eq_zero]
    rw [List.filter_eq_nil_iff]
    intro c hc hcon
    have : c = '!' := eq_of_beq hcon
    subst this
    rcases preprocess_chars s '!' hc with hw | hsp
    · simp [isWordChar] at hw
    · simp at hsp
  cases v with
  | vstr s => rw [preprocessText_vstr]; exact hgen s
  | vnull => rfl
  | vundef => rfl
  | vbool b => rfl
  | vnum q => rfl
  | varr l => rfl

set_option maxRecDepth 10000 in
/-- C8, counterexample: inserting a `'!'` in the middle of a word changes
`analyzeSentiment`'s output — preprocessing turns the `'!'` into a space,
splitting `"excellent"` (one positive keyword, score `0.9`) into
`"excel lent"` (no keyword, score `0.5`). -/
theorem claim_C8_counterexample :
    analyzeSentiment (JSVal.vstr "excel!lent") ≠
      analyzeSentiment (JSVal.vstr "excellent") := by
  with_unfolding_all decide

/-- C8 (amended): `analyzeSentiment(text)` equals
`analyzeSentiment(preprocessText(text))` for every input (preprocessing is
idempotent); the question-mark and exclamation-mark context modifiers can
never fire on the `analyzeSentiment` path, because a preprocessed text never
contains `'?'` or `'!'`; and appending or removing a `'?'` or `'!'` at the
END of the input never changes `analyzeSentiment`'s output.  (Insertion at
an arbitrary position can split a keyword in two and change the output —
see the counterexample.) -/
theorem claim_C8_amended :
    (∀ v : JSVal, analyzeSentiment v = analyzeSentiment (JSVal.vstr (preprocessText v))) ∧
    (∀ (v : JSVal) (s : ℚ), questionStage (preprocessText v) s = s ∧
      exclaimStage (preprocessText v) s = s) ∧
    (∀ t : String,
      analyzeSentiment (JSVal.vstr (t.push '!')) = analyzeSentiment (JSVal.vstr t) ∧
      analyzeSentiment (JSVal.vstr (t.push '?')) = analyzeSentiment (JSVal.vstr t)) := by
  refine ⟨?_, ?_, ?_⟩
  · intro v
    unfold analyzeSentiment
    rw [preprocessText_vstr, preprocessText_idem]
  · intro v s
    constructor
    · unfold questionStage
      rw [preprocessText_no_question v]
      simp
    · exact exclaimStage_id (preprocessText_no_exclaim v) s
  · intro t
    constructor
    · unfold analyzeSentiment
      rw [preprocessText_vstr, preprocessText_vstr,
        preprocessString_push t '!' (by decide) (by decide)]
    · unfold analyzeSentiment
      rw [preprocessText_vstr, preprocessText_vstr,
        preprocessString_push t '?' (by decide) (by decide)]
